import Mathlib

/-!
Verification of the toolstate synchronization and promotion pipeline
(`update_toolstate.py`).

The embedding models:
* the S3 key helpers `get_s3_key` and `parse_s3_key` directly on strings;
* the object store as the sets of `(tool, version)` keys under the two
  prefixes `<platform>/cache/` and `<platform>/current/` (a `Store`);
* Python `dict(...)` construction and `dict.get` over association lists
  (`pyDict`, `dictGet`), as used by `_get_tools_in` and the version maps;
* `sync_tools` as the list of S3 operations it issues (`S3Op`), in order,
  together with their effect on the store (`applyOps`);
* `main` as `mainRun`: build-need planning (`toBuild`), the staged set of
  binaries present in `BIN_DIR` when `sync_tools` runs (tools built before
  the first failure), the exit status, and the resulting store.
-/

namespace Toolstate

/-- The character list underlying `tool ++ "-" ++ version`, the basename
produced by `get_s3_key`. -/
def keyName (tool version : String) : String :=
  tool ++ "-" ++ version

/-- `get_s3_key(prefix, tool, version)`: `osp.join(prefix, f"{tool}-{version}")`
with POSIX join semantics (if the basename is absolute, it wins; otherwise a
slash separator is inserted unless the first component is empty or already
ends in a slash). -/
def get_s3_key (pfx tool version : String) : String :=
  if (keyName tool version).data.head? = some '/' then keyName tool version
  else if pfx = "" ∨ pfx.data.getLast? = some '/' then
    pfx ++ keyName tool version
  else pfx ++ "/" ++ keyName tool version

/-- Python `s.rsplit(sep, 1)` for a single-character separator: split at the
last occurrence of `sep` (the part after it is the longest `sep`-free
suffix), or return `[s]` when `sep` does not occur. -/
def rsplit1 (sep : Char) (s : String) : List String :=
  if sep ∈ s.data then
    [⟨s.data.take (s.data.length -
        ((s.data.reverse.takeWhile fun c => c != sep).reverse).length - 1)⟩,
     ⟨(s.data.reverse.takeWhile fun c => c != sep).reverse⟩]
  else [s]

/-- `parse_s3_key(key)`: `key.rsplit("/", 1)[-1].rsplit("-", 1)`. -/
def parse_s3_key (key : String) : List String :=
  rsplit1 '-' ((rsplit1 '/' key).getLastD "")

/-- The two artifact namespaces of the store: `<platform>/cache/` and
`<platform>/current/`. -/
inductive Area
  | cache
  | current
deriving DecidableEq

/-- The state of the object store for one platform: the `(tool, version)`
keys present under each of the two prefixes. -/
structure Store where
  cache : List (String × String)
  current : List (String × String)
deriving DecidableEq

/-- One S3 request issued by the pipeline: `upload_file`, `copy_object`
(source key, destination key) or a batched `delete_objects`. -/
inductive S3Op
  | uploadFile : Area → String → String → S3Op
  | copyObject : Area × String × String → Area × String × String → S3Op
  | deleteObjects : List (Area × String × String) → S3Op
deriving DecidableEq

/-- Python `dict(pairs)` insertion step: a repeated key overwrites the stored
value in place, a fresh key is appended. -/
def pyDictInsert (d : List (String × String)) (kv : String × String) :
    List (String × String) :=
  if d.any fun p => p.1 == kv.1 then
    d.map fun p => if p.1 == kv.1 then (p.1, kv.2) else p
  else d ++ [kv]

/-- Python `dict(pairs)`: fold the insertion step over the pair list, as
`_get_tools_in` does with the parsed listing of a prefix. -/
def pyDict (l : List (String × String)) : List (String × String) :=
  l.foldl pyDictInsert []

/-- Python `d.get(k)` on a dict represented as an association list with
unique keys: the first (hence only) binding of `k`, if any. -/
def dictGet (d : List (String × String)) (k : String) : Option String :=
  (d.find? fun p => p.1 == k).map (·.2)

/-- `head_versions[tool]` (`dict` subscript; total-ized with a default that
is never reached when `tool` is a planned tool). -/
def hv (head : List (String × String)) (t : String) : String :=
  (dictGet head t).getD ""

/-- The build plan of `main`: the tools whose freshly resolved head revision
differs from the version recorded in the cache listing (including tools with
no cache record at all). -/
def toBuild (head cached : List (String × String)) : List (String × String) :=
  head.filter fun tv => decide (dictGet cached tv.1 ≠ some tv.2)

/-- The set of names staged in `BIN_DIR` when `sync_tools` runs: the planned
tools whose build succeeded before the first failure (all of them when every
build succeeds). -/
def builtNames (head cached : List (String × String)) (bOk : String → Bool) :
    List String :=
  ((toBuild head cached).takeWhile fun tv => bOk tv.1).map (·.1)

/-- The superseded cache keys collected in the `built_tools` loop of
`sync_tools`: for each freshly built tool, its previously cached key, when a
(truthy, i.e. nonempty) cached version exists. -/
def toDeleteCacheKeys (cached : List (String × String)) (built : List String) :
    List (Area × String × String) :=
  built.filterMap fun t =>
    (dictGet cached t).bind fun cv =>
      if cv = "" then none else some (Area.cache, t, cv)

/-- The stale `current/` keys collected under `update_current`: every entry
of the `current/` listing whose version is not the tool's freshly resolved
head version (including tools absent from the configuration). -/
def toDeleteCurrentKeys (head : List (String × String)) (st : Store) :
    List (Area × String × String) :=
  (pyDict st.current).filterMap fun tv =>
    if dictGet head tv.1 = some tv.2 then none
    else some (Area.current, tv.1, tv.2)

/-- The full `to_delete` batch of one `sync_tools` call. -/
def toDelete (head cached : List (String × String)) (built : List String)
    (uc : Bool) (st : Store) : List (Area × String × String) :=
  toDeleteCacheKeys cached built ++
    (if uc then toDeleteCurrentKeys head st else [])

/-- The S3 operations issued by `sync_tools`, in issue order: cache uploads
of the staged binaries; then, only under `update_current`, the cache→current
copies for every resolved tool followed by the direct current uploads of the
staged binaries; finally the single batched delete (only when the batch is
nonempty). -/
def sync_tools (head cached : List (String × String)) (uc : Bool)
    (built : List String) (st : Store) : List S3Op :=
  let td := toDelete head cached built uc st
  (built.map fun t => S3Op.uploadFile Area.cache t (hv head t)) ++
    ((if uc then
        (head.map fun tv =>
          S3Op.copyObject (Area.cache, tv.1, tv.2) (Area.current, tv.1, tv.2)) ++
          (built.map fun t => S3Op.uploadFile Area.current t (hv head t))
      else []) ++
      (if td.isEmpty then [] else [S3Op.deleteObjects td]))

/-- Add a key to an area listing (uploading or copying over an existing key
leaves the key set unchanged). -/
def addKey (l : List (String × String)) (k : String × String) :
    List (String × String) :=
  if k ∈ l then l else l ++ [k]

/-- Fold `addKey` over a list of keys. -/
def addKeys (l ks : List (String × String)) : List (String × String) :=
  ks.foldl addKey l

/-- Write a key into one area of the store. -/
def putKey (st : Store) (a : Area) (k : String × String) : Store :=
  match a with
  | Area.cache => ⟨addKey st.cache k, st.current⟩
  | Area.current => ⟨st.cache, addKey st.current k⟩

/-- The effect of one S3 operation on the store. -/
def applyOp (st : Store) : S3Op → Store
  | S3Op.uploadFile a t v => putKey st a (t, v)
  | S3Op.copyObject _ dst => putKey st dst.1 dst.2
  | S3Op.deleteObjects ks =>
      ⟨st.cache.filter fun k => decide ((Area.cache, k.1, k.2) ∉ ks),
       st.current.filter fun k => decide ((Area.current, k.1, k.2) ∉ ks)⟩

/-- The effect of a sequence of S3 operations on the store. -/
def applyOps (st : Store) (ops : List S3Op) : Store :=
  ops.foldl applyOp st

/-- One full run of `main`, given the freshly resolved head versions, an
oracle saying which tool builds succeed, and the current store: returns the
exit status (0 on success, 1 when a build failed and the exception
propagates), the S3 operations issued, and the resulting store.  When the
plan is empty the run prints and returns with no further side effects;
otherwise builds run in plan order until the first failure, and `sync_tools`
always runs (in the `finally` block), with `update_current` true exactly
when every planned build succeeded. -/
def mainRun (head : List (String × String)) (bOk : String → Bool)
    (st : Store) : Nat × List S3Op × Store :=
  let cached := pyDict st.cache
  let tb := toBuild head cached
  if tb.isEmpty then (0, [], st)
  else
    let ok := tb.all fun tv => bOk tv.1
    let built := builtNames head cached bOk
    let ops := sync_tools head cached ok built st
    ((if ok then 0 else 1), ops, applyOps st ops)

/-- Is the operation a batched delete? -/
def isDeleteOp : S3Op → Bool
  | S3Op.deleteObjects _ => true
  | _ => false

/-- Does the operation write or delete a key under `current/`? -/
def touchesCurrent : S3Op → Bool
  | S3Op.uploadFile a _ _ => a == Area.current
  | S3Op.copyObject _ dst => dst.1 == Area.current
  | S3Op.deleteObjects ks => ks.any fun k => k.1 == Area.current

/-- An association list with pairwise distinct keys (every Python dict
listing satisfies this; store listings do whenever each tool has at most one
version under the prefix). -/
def namesNodup (l : List (String × String)) : Prop :=
  (l.map Prod.fst).Nodup

instance (l : List (String × String)) : Decidable (namesNodup l) := by
  unfold namesNodup; infer_instance

/-! ### Basic lemmas about the store primitives -/

theorem mem_addKey {l : List (String × String)} {k a : String × String} :
    a ∈ addKey l k ↔ a ∈ l ∨ a = k := by
  by_cases h : k ∈ l
  · simp only [addKey, if_pos h]
    exact ⟨Or.inl, fun h' => h'.elim id fun e => e ▸ h⟩
  · simp [addKey, if_neg h]

theorem mem_addKeys {ks l : List (String × String)} {a : String × String} :
    a ∈ addKeys l ks ↔ a ∈ l ∨ a ∈ ks := by
  induction ks generalizing l with
  | nil => simp [addKeys]
  | cons x xs ih =>
    have : addKeys l (x :: xs) = addKeys (addKey l x) xs := rfl
    rw [this, ih, mem_addKey]
    simp only [List.mem_cons]
    tauto

theorem applyOps_append (st : Store) (l₁ l₂ : List S3Op) :
    applyOps st (l₁ ++ l₂) = applyOps (applyOps st l₁) l₂ :=
  List.foldl_append _ _ _ _

theorem applyOps_cons (st : Store) (op : S3Op) (ops : List S3Op) :
    applyOps st (op :: ops) = applyOps (applyOp st op) ops := rfl

theorem applyOps_cacheUploads (f : String → String) (ts : List String)
    (st : Store) :
    applyOps st (ts.map fun t => S3Op.uploadFile Area.cache t (f t)) =
      ⟨addKeys st.cache (ts.map fun t => (t, f t)), st.current⟩ := by
  induction ts generalizing st with
  | nil => rfl
  | cons x xs ih =>
    simp only [List.map_cons, applyOps_cons, applyOp, putKey]
    rw [ih]
    rfl

theorem applyOps_currentUploads (f : String → String) (ts : List String)
    (st : Store) :
    applyOps st (ts.map fun t => S3Op.uploadFile Area.current t (f t)) =
      ⟨st.cache, addKeys st.current (ts.map fun t => (t, f t))⟩ := by
  induction ts generalizing st with
  | nil => rfl
  | cons x xs ih =>
    simp only [List.map_cons, applyOps_cons, applyOp, putKey]
    rw [ih]
    rfl

theorem applyOps_copies (h : List (String × String)) (st : Store) :
    applyOps st (h.map fun tv =>
        S3Op.copyObject (Area.cache, tv.1, tv.2) (Area.current, tv.1, tv.2)) =
      ⟨st.cache, addKeys st.current h⟩ := by
  induction h generalizing st with
  | nil => rfl
  | cons x xs ih =>
    simp only [List.map_cons, applyOps_cons, applyOp, putKey]
    rw [ih]
    rfl

theorem applyOps_deleteTail (st : Store) (L : List (Area × String × String)) :
    applyOps st (if L.isEmpty then [] else [S3Op.deleteObjects L]) =
      ⟨st.cache.filter fun k => decide ((Area.cache, k.1, k.2) ∉ L),
       st.current.filter fun k => decide ((Area.current, k.1, k.2) ∉ L)⟩ := by
  cases L with
  | nil => simp [applyOps]
  | cons x xs => simp [applyOps, applyOp]

/-- The cumulative effect of a non-promoting `sync_tools` call on the store:
the staged binaries land in `cache/`, `current/` is touched only by the
final filter against the `to_delete` batch. -/
theorem apply_sync_false (head cached : List (String × String))
    (built : List String) (st : Store) :
    applyOps st (sync_tools head cached false built st) =
      ⟨(addKeys st.cache (built.map fun t => (t, hv head t))).filter
          (fun k => decide ((Area.cache, k.1, k.2) ∉ toDelete head cached built false st)),
       st.current.filter
          (fun k => decide ((Area.current, k.1, k.2) ∉ toDelete head cached built false st))⟩ := by
  show applyOps st ((built.map fun t => S3Op.uploadFile Area.cache t (hv head t)) ++
      ([] ++ (if (toDelete head cached built false st).isEmpty then []
        else [S3Op.deleteObjects (toDelete head cached built false st)]))) = _
  rw [applyOps_append, applyOps_append, applyOps_cacheUploads]
  exact applyOps_deleteTail _ _

/-- The cumulative effect of a promoting `sync_tools` call on the store: the
staged binaries land in `cache/`, every resolved pair and every staged pair
lands in `current/`, and finally the `to_delete` batch is filtered out of
both areas. -/
theorem apply_sync_true (head cached : List (String × String))
    (built : List String) (st : Store) :
    applyOps st (sync_tools head cached true built st) =
      ⟨(addKeys st.cache (built.map fun t => (t, hv head t))).filter
          (fun k => decide ((Area.cache, k.1, k.2) ∉ toDelete head cached built true st)),
       (addKeys (addKeys st.current head)
          (built.map fun t => (t, hv head t))).filter
          (fun k => decide ((Area.current, k.1, k.2) ∉ toDelete head cached built true st))⟩ := by
  show applyOps st ((built.map fun t => S3Op.uploadFile Area.cache t (hv head t)) ++
      (((head.map fun tv =>
          S3Op.copyObject (Area.cache, tv.1, tv.2) (Area.current, tv.1, tv.2)) ++
        (built.map fun t => S3Op.uploadFile Area.current t (hv head t))) ++
        (if (toDelete head cached built true st).isEmpty then []
          else [S3Op.deleteObjects (toDelete head cached built true st)]))) = _
  rw [applyOps_append, applyOps_append, applyOps_append, applyOps_cacheUploads,
    applyOps_copies, applyOps_currentUploads]
  exact applyOps_deleteTail _ _

/-! ### Lemmas about Python dicts and `get` -/

theorem foldl_pyDictInsert (l : List (String × String)) :
    ∀ d : List (String × String), namesNodup (d ++ l) →
      l.foldl pyDictInsert d = d ++ l := by
  induction l with
  | nil => intro d _; simp
  | cons x xs ih =>
    intro d hnd
    have hx : ¬((d.any fun p => p.1 == x.1) = true) := by
      intro hany
      rcases List.any_eq_true.1 hany with ⟨p, hp, hpe⟩
      have hx1 : x.1 ∈ d.map Prod.fst := List.mem_map.2 ⟨p, hp, beq_iff_eq.1 hpe⟩
      have : (d.map Prod.fst ++ x.1 :: xs.map Prod.fst).Nodup := by
        simpa [namesNodup] using hnd
      exact (List.disjoint_of_nodup_append this) hx1 (List.mem_cons_self _ _)
    have hstep : List.foldl pyDictInsert d (x :: xs) =
        List.foldl pyDictInsert (d ++ [x]) xs := by
      simp [List.foldl, pyDictInsert, hx]
    rw [hstep, ih (d ++ [x]) (by simpa using hnd)]
    simp

theorem pyDict_eq_self {l : List (String × String)} (h : namesNodup l) :
    pyDict l = l := by
  simpa using foldl_pyDictInsert l [] (by simpa using h)

theorem dictGet_mem {l : List (String × String)} {t v : String}
    (h : dictGet l t = some v) : (t, v) ∈ l := by
  unfold dictGet at h
  cases hf : l.find? fun p => p.1 == t with
  | none => rw [hf] at h; simp at h
  | some p =>
    rw [hf] at h
    have hpb := List.find?_some hf
    have hp1 : p.1 = t := by simpa using hpb
    have hp2 : p.2 = v := by simpa using h
    have : p ∈ l := List.mem_of_find?_eq_some hf
    rw [← hp1, ← hp2]
    simpa using this

theorem dictGet_eq_some_of_mem {l : List (String × String)} {t v : String}
    (hnd : namesNodup l) (h : (t, v) ∈ l) : dictGet l t = some v := by
  induction l with
  | nil => cases h
  | cons x xs ih =>
    have hnd' : namesNodup xs := by
      simpa [namesNodup] using (List.nodup_cons.1 (by simpa [namesNodup] using hnd)).2
    rcases List.mem_cons.1 h with he | hm
    · rw [← he]
      simp [dictGet, List.find?]
    · have hx1 : x.1 ≠ t := by
        intro he1
        have : x.1 ∈ xs.map Prod.fst := he1 ▸ List.mem_map.2 ⟨(t, v), hm, rfl⟩
        exact (List.nodup_cons.1 (by simpa [namesNodup] using hnd)).1 this
      have : (x.1 == t) = false := beq_eq_false_iff_ne.2 hx1
      simp only [dictGet, List.find?, this]
      exact ih hnd' hm

theorem dictGet_eq_some_iff {l : List (String × String)} {t v : String}
    (hnd : namesNodup l) : dictGet l t = some v ↔ (t, v) ∈ l :=
  ⟨dictGet_mem, dictGet_eq_some_of_mem hnd⟩

theorem dictGet_eq_none_iff {l : List (String × String)} {t : String} :
    dictGet l t = none ↔ ∀ p ∈ l, p.1 ≠ t := by
  unfold dictGet
  rw [Option.map_eq_none', List.find?_eq_none]
  simp

theorem exists_dictGet_of_mem {l : List (String × String)} {t v : String}
    (h : (t, v) ∈ l) : ∃ v', dictGet l t = some v' ∧ (t, v') ∈ l := by
  cases hg : dictGet l t with
  | none => exact absurd rfl ((dictGet_eq_none_iff.1 hg) (t, v) h)
  | some v' => exact ⟨v', rfl, dictGet_mem hg⟩

/-! ### Lemmas about the build plan -/

theorem mem_toBuild {head cached : List (String × String)}
    {tv : String × String} :
    tv ∈ toBuild head cached ↔ tv ∈ head ∧ dictGet cached tv.1 ≠ some tv.2 := by
  simp [toBuild, List.mem_filter]

theorem toBuild_eq_nil_iff {head cached : List (String × String)} :
    toBuild head cached = [] ↔ ∀ tv ∈ head, dictGet cached tv.1 = some tv.2 := by
  simp [toBuild, List.filter_eq_nil_iff]

theorem namesNodup_toBuild {head cached : List (String × String)}
    (h : namesNodup head) : namesNodup (toBuild head cached) :=
  List.Nodup.sublist ((List.filter_sublist head).map Prod.fst) h

theorem builtNames_all (head cached : List (String × String))
    (bOk : String → Bool) (hok : ∀ tv ∈ toBuild head cached, bOk tv.1 = true) :
    builtNames head cached bOk = (toBuild head cached).map (·.1) := by
  unfold builtNames
  rw [List.takeWhile_eq_self_iff.2 hok]

theorem mem_of_mem_takeWhile {α : Type} {p : α → Bool} {l : List α} {x : α}
    (h : x ∈ l.takeWhile p) : x ∈ l := by
  induction l with
  | nil => cases h
  | cons a as ih =>
    rw [List.takeWhile_cons] at h
    by_cases hpa : p a = true
    · rw [if_pos hpa] at h
      rcases List.mem_cons.1 h with he | hm
      · exact he ▸ List.mem_cons_self _ _
      · exact List.mem_cons_of_mem _ (ih hm)
    · rw [if_neg hpa] at h
      cases h

theorem mem_builtNames {head cached : List (String × String)}
    {bOk : String → Bool} {t : String} (h : t ∈ builtNames head cached bOk) :
    ∃ v, (t, v) ∈ toBuild head cached := by
  rcases List.mem_map.1 h with ⟨tv, htv, hfst⟩
  exact ⟨tv.2, hfst ▸ mem_of_mem_takeWhile htv⟩

/-! ### Lemmas about the delete batch -/

theorem mem_toDeleteCacheKeys_iff {cached : List (String × String)}
    {built : List String} {t v : String} :
    (Area.cache, t, v) ∈ toDeleteCacheKeys cached built ↔
      t ∈ built ∧ dictGet cached t = some v ∧ v ≠ "" := by
  unfold toDeleteCacheKeys
  rw [List.mem_filterMap]
  constructor
  · rintro ⟨t', ht', hbind⟩
    rcases Option.bind_eq_some.1 hbind with ⟨cv, hcv, hif⟩
    by_cases hcve : cv = ""
    · rw [if_pos hcve] at hif; cases hif
    · rw [if_neg hcve] at hif
      have ht : t' = t ∧ cv = v := by
        constructor <;> · injection hif with h'; injection h' with h1 h2; simp_all
      exact ⟨ht.1 ▸ ht', by rw [← ht.1, hcv, ht.2], ht.2 ▸ hcve⟩
  · rintro ⟨hb, hg, hv0⟩
    exact ⟨t, hb, by rw [hg]; simp [Option.bind, if_neg hv0]⟩

theorem area_of_mem_toDeleteCacheKeys {cached : List (String × String)}
    {built : List String} {x : Area × String × String}
    (h : x ∈ toDeleteCacheKeys cached built) : x.1 = Area.cache := by
  unfold toDeleteCacheKeys at h
  rcases List.mem_filterMap.1 h with ⟨t', _, hbind⟩
  rcases Option.bind_eq_some.1 hbind with ⟨cv, _, hif⟩
  by_cases hcve : cv = ""
  · rw [if_pos hcve] at hif; cases hif
  · rw [if_neg hcve] at hif
    cases hif
    rfl

theorem mem_toDeleteCurrentKeys_iff {head : List (String × String)}
    {st : Store} {t v : String} :
    (Area.current, t, v) ∈ toDeleteCurrentKeys head st ↔
      (t, v) ∈ pyDict st.current ∧ dictGet head t ≠ some v := by
  unfold toDeleteCurrentKeys
  rw [List.mem_filterMap]
  constructor
  · rintro ⟨tv, htv, hif⟩
    by_cases hc : dictGet head tv.1 = some tv.2
    · rw [if_pos hc] at hif; cases hif
    · rw [if_neg hc] at hif
      have ht : tv.1 = t ∧ tv.2 = v := by
        constructor <;> · injection hif with h'; injection h' with h1 h2; simp_all
      refine ⟨?_, by rw [← ht.1, ← ht.2]; exact hc⟩
      have : tv = (t, v) := Prod.ext ht.1 ht.2
      exact this ▸ htv
  · rintro ⟨hm, hg⟩
    exact ⟨(t, v), hm, by rw [if_neg hg]⟩

theorem area_of_mem_toDeleteCurrentKeys {head : List (String × String)}
    {st : Store} {x : Area × String × String}
    (h : x ∈ toDeleteCurrentKeys head st) : x.1 = Area.current := by
  unfold toDeleteCurrentKeys at h
  rcases List.mem_filterMap.1 h with ⟨tv, _, hif⟩
  by_cases hc : dictGet head tv.1 = some tv.2
  · rw [if_pos hc] at hif; cases hif
  · rw [if_neg hc] at hif
    cases hif
    rfl

theorem mem_toDelete_cache_iff {head cached : List (String × String)}
    {built : List String} {uc : Bool} {st : Store} {t v : String} :
    (Area.cache, t, v) ∈ toDelete head cached built uc st ↔
      (Area.cache, t, v) ∈ toDeleteCacheKeys cached built := by
  unfold toDelete
  rw [List.mem_append]
  constructor
  · rintro (h | h)
    · exact h
    · cases uc with
      | false => cases h
      | true => exact absurd (area_of_mem_toDeleteCurrentKeys (by simpa using h)) (by simp)
  · exact Or.inl

theorem mem_toDelete_current_iff {head cached : List (String × String)}
    {built : List String} {st : Store} {t v : String} :
    (Area.current, t, v) ∈ toDelete head cached built true st ↔
      (Area.current, t, v) ∈ toDeleteCurrentKeys head st := by
  unfold toDelete
  rw [List.mem_append]
  constructor
  · rintro (h | h)
    · exact absurd (area_of_mem_toDeleteCacheKeys h) (by simp)
    · simpa using h
  · intro h
    exact Or.inr (by simpa using h)

theorem not_mem_toDelete_current_false {head cached : List (String × String)}
    {built : List String} {st : Store} {t v : String} :
    (Area.current, t, v) ∉ toDelete head cached built false st := by
  unfold toDelete
  rw [List.mem_append]
  rintro (h | h)
  · exact absurd (area_of_mem_toDeleteCacheKeys h) (by simp)
  · cases h

/-! ### Unfolding `mainRun` -/

theorem addKeys_eq_append {l ks : List (String × String)}
    (h1 : ∀ k ∈ ks, k ∉ l) (h2 : ks.Nodup) : addKeys l ks = l ++ ks := by
  induction ks generalizing l with
  | nil => simp [addKeys]
  | cons x xs ih =>
    have hx : x ∉ l := h1 x (List.mem_cons_self _ _)
    have hstep : addKeys l (x :: xs) = addKeys (l ++ [x]) xs := by
      show addKeys (addKey l x) xs = _
      rw [addKey, if_neg hx]
    rw [hstep, ih (fun k hk => by
      rw [List.mem_append]
      rintro (hkl | hkx)
      · exact h1 k (List.mem_cons_of_mem _ hk) hkl
      · exact (List.nodup_cons.1 h2).1 ((List.mem_singleton.1 hkx) ▸ hk))
      (List.nodup_cons.1 h2).2]
    simp

theorem mainRun_nil (head : List (String × String)) (bOk : String → Bool)
    (st : Store) (h : toBuild head (pyDict st.cache) = []) :
    mainRun head bOk st = (0, [], st) := by
  simp [mainRun, h]

theorem mainRun_ne (head : List (String × String)) (bOk : String → Bool)
    (st : Store) (hne : toBuild head (pyDict st.cache) ≠ []) :
    mainRun head bOk st =
      ((if (toBuild head (pyDict st.cache)).all (fun tv => bOk tv.1) then 0 else 1),
       sync_tools head (pyDict st.cache)
         ((toBuild head (pyDict st.cache)).all fun tv => bOk tv.1)
         (builtNames head (pyDict st.cache) bOk) st,
       applyOps st (sync_tools head (pyDict st.cache)
         ((toBuild head (pyDict st.cache)).all fun tv => bOk tv.1)
         (builtNames head (pyDict st.cache) bOk) st)) := by
  cases htb : toBuild head (pyDict st.cache) with
  | nil => exact absurd htb hne
  | cons a l =>
    simp only [mainRun, htb, List.isEmpty_cons, Bool.false_eq_true, if_false,
      builtNames]

/-! ### The store after a fully successful run -/

theorem mem_name_unique {l : List (String × String)} {t v₁ v₂ : String}
    (hnd : namesNodup l) (h1 : (t, v₁) ∈ l) (h2 : (t, v₂) ∈ l) : v₁ = v₂ := by
  have e1 := dictGet_eq_some_of_mem hnd h1
  have e2 := dictGet_eq_some_of_mem hnd h2
  rw [e1] at e2
  injection e2

theorem hv_eq_of_mem {head : List (String × String)} {tv : String × String}
    (hh : namesNodup head) (h : tv ∈ head) : hv head tv.1 = tv.2 := by
  rw [hv, dictGet_eq_some_of_mem hh (by simpa using h)]
  rfl

theorem builtPairs_eq_toBuild {head cached : List (String × String)}
    (hh : namesNodup head) :
    ((toBuild head cached).map (·.1)).map (fun t => (t, hv head t)) =
      toBuild head cached := by
  rw [List.map_map]
  have hcg : ∀ tv ∈ toBuild head cached,
      ((fun t => (t, hv head t)) ∘ (·.1)) tv = id tv := by
    intro tv htv
    have h1 : tv ∈ head := (mem_toBuild.1 htv).1
    show (tv.1, hv head tv.1) = tv
    rw [hv_eq_of_mem hh h1]
  rw [List.map_congr_left hcg, List.map_id]

/-- After a run whose plan is nonempty and whose builds all succeed, the keys
under `current/` are exactly the freshly resolved `(tool, version)` pairs. -/
theorem current_after_run_ok (head : List (String × String))
    (bOk : String → Bool) (st : Store)
    (hh : namesNodup head) (hcur : namesNodup st.current)
    (hne : toBuild head (pyDict st.cache) ≠ [])
    (hok : ∀ tv ∈ toBuild head (pyDict st.cache), bOk tv.1 = true)
    (k : String × String) :
    k ∈ (mainRun head bOk st).2.2.current ↔ k ∈ head := by
  have hall : (toBuild head (pyDict st.cache)).all (fun tv => bOk tv.1) = true :=
    List.all_eq_true.2 hok
  have hbuilt : builtNames head (pyDict st.cache) bOk =
      (toBuild head (pyDict st.cache)).map (·.1) :=
    builtNames_all _ _ _ hok
  rw [mainRun_ne head bOk st hne]
  show k ∈ (applyOps st (sync_tools head (pyDict st.cache) _ _ st)).current ↔ _
  rw [hall, hbuilt, apply_sync_true]
  show k ∈ (addKeys (addKeys st.current head)
      (((toBuild head (pyDict st.cache)).map (·.1)).map
        fun t => (t, hv head t))).filter _ ↔ _
  rw [builtPairs_eq_toBuild hh, List.mem_filter]
  constructor
  · rintro ⟨hmem, hpred⟩
    rcases mem_addKeys.1 hmem with hm | hm
    · rcases mem_addKeys.1 hm with hm' | hm'
      · -- a pre-existing current key that survived the delete batch
        have hdec : (Area.current, k.1, k.2) ∉
            toDelete head (pyDict st.cache)
              ((toBuild head (pyDict st.cache)).map (·.1)) true st := by
          simpa using hpred
        have hnot : (Area.current, k.1, k.2) ∉ toDeleteCurrentKeys head st :=
          fun hx => hdec (mem_toDelete_current_iff.2 hx)
        rw [mem_toDeleteCurrentKeys_iff] at hnot
        rw [pyDict_eq_self hcur] at hnot
        push_neg at hnot
        exact dictGet_mem (hnot hm')
      · exact hm'
    · exact (mem_toBuild.1 hm).1
  · intro hk
    refine ⟨mem_addKeys.2 (Or.inl (mem_addKeys.2 (Or.inr hk))), ?_⟩
    have : (Area.current, k.1, k.2) ∉
        toDelete head (pyDict st.cache)
          ((toBuild head (pyDict st.cache)).map (·.1)) true st := by
      intro hx
      have hcx := mem_toDeleteCurrentKeys_iff.1 (mem_toDelete_current_iff.1 hx)
      exact hcx.2 (dictGet_eq_some_of_mem hh hk)
    simpa using this

/-- After any run that exits 0, every freshly resolved tool maps to its head
revision in the `cache/` listing dict of the resulting store. -/
theorem cache_after_run_ok (head : List (String × String))
    (bOk : String → Bool) (st : Store)
    (hh : namesNodup head) (hc : namesNodup st.cache)
    (hcn : ∀ p ∈ st.cache, p.2 ≠ "")
    (hexit : (mainRun head bOk st).1 = 0) :
    ∀ tv ∈ head, dictGet (pyDict (mainRun head bOk st).2.2.cache) tv.1 =
      some tv.2 := by
  have hcached : pyDict st.cache = st.cache := pyDict_eq_self hc
  by_cases htb0 : toBuild head (pyDict st.cache) = []
  · rw [mainRun_nil _ _ _ htb0]
    intro tv htv
    show dictGet (pyDict st.cache) tv.1 = some tv.2
    exact toBuild_eq_nil_iff.1 htb0 tv htv
  · cases hall : (toBuild head (pyDict st.cache)).all fun tv => bOk tv.1 with
    | false =>
      rw [mainRun_ne _ _ _ htb0] at hexit
      rw [hall] at hexit
      simp at hexit
    | true =>
      have hok : ∀ tv ∈ toBuild head (pyDict st.cache), bOk tv.1 = true :=
        List.all_eq_true.1 hall
      have hbuilt : builtNames head (pyDict st.cache) bOk =
          (toBuild head (pyDict st.cache)).map (·.1) :=
        builtNames_all _ _ _ hok
      rw [mainRun_ne _ _ _ htb0]
      show ∀ tv ∈ head, dictGet (pyDict
        (applyOps st (sync_tools head (pyDict st.cache) _ _ st)).cache) tv.1 =
          some tv.2
      rw [hall, hbuilt, apply_sync_true]
      show ∀ tv ∈ head, dictGet (pyDict ((addKeys st.cache
        (((toBuild head (pyDict st.cache)).map (·.1)).map
          fun t => (t, hv head t))).filter _)) tv.1 = some tv.2
      rw [builtPairs_eq_toBuild hh]
      -- shorthand facts about the plan and the delete batch
      have htbex : addKeys st.cache (toBuild head (pyDict st.cache)) =
          st.cache ++ toBuild head (pyDict st.cache) := by
        refine addKeys_eq_append ?_ ?_
        · intro x hx hmemc
          have := (mem_toBuild.1 hx).2
          rw [hcached] at this
          exact this (dictGet_eq_some_of_mem hc hmemc)
        · exact List.Nodup.of_map Prod.fst (namesNodup_toBuild hh)
      rw [htbex, List.filter_append]
      -- the delete predicate on cache keys
      have hdel : ∀ t v, (Area.cache, t, v) ∈
          toDelete head (pyDict st.cache)
            ((toBuild head (pyDict st.cache)).map (·.1)) true st ↔
          (t ∈ (toBuild head (pyDict st.cache)).map (·.1) ∧
            dictGet (pyDict st.cache) t = some v ∧ v ≠ "") :=
        fun t v => mem_toDelete_cache_iff.trans mem_toDeleteCacheKeys_iff
      -- surviving old entries are exactly those of unbuilt tools
      have hnodupC : namesNodup
          ((st.cache.filter fun k => decide ((Area.cache, k.1, k.2) ∉
              toDelete head (pyDict st.cache)
                ((toBuild head (pyDict st.cache)).map (·.1)) true st)) ++
            ((toBuild head (pyDict st.cache)).filter
              fun k => decide ((Area.cache, k.1, k.2) ∉
                toDelete head (pyDict st.cache)
                  ((toBuild head (pyDict st.cache)).map (·.1)) true st))) := by
        unfold namesNodup
        rw [List.map_append]
        refine List.Nodup.append ?_ ?_ ?_
        · exact List.Nodup.sublist ((List.filter_sublist _).map Prod.fst) hc
        · exact List.Nodup.sublist ((List.filter_sublist _).map Prod.fst)
            (namesNodup_toBuild hh)
        · intro t ht1 ht2
          rcases List.mem_map.1 ht1 with ⟨p, hp, hpt⟩
          rcases List.mem_filter.1 hp with ⟨hpc, hppred⟩
          rcases List.mem_map.1 ht2 with ⟨q, hq, hqt⟩
          rcases List.mem_filter.1 hq with ⟨hqtb, _⟩
          have hpdel : (Area.cache, p.1, p.2) ∈
              toDelete head (pyDict st.cache)
                ((toBuild head (pyDict st.cache)).map (·.1)) true st := by
            rw [hdel]
            refine ⟨?_, ?_, hcn p hpc⟩
            · rw [hpt, ← hqt]
              exact List.mem_map.2 ⟨q, hqtb, rfl⟩
            · rw [hcached]
              exact dictGet_eq_some_of_mem hc (by simpa using hpc)
          have := hppred
          rw [decide_eq_true_eq] at this
          exact this hpdel
      intro tv htv
      rw [pyDict_eq_self hnodupC]
      apply dictGet_eq_some_of_mem hnodupC
      by_cases htvtb : tv ∈ toBuild head (pyDict st.cache)
      · -- freshly built: the new pair is in the appended part and survives
        refine List.mem_append.2 (Or.inr (List.mem_filter.2 ⟨htvtb, ?_⟩))
        rw [decide_eq_true_eq, hdel]
        rintro ⟨-, hg, -⟩
        exact (mem_toBuild.1 htvtb).2 (by simpa using hg)
      · -- not rebuilt: the cached pair is untouched
        have hg : dictGet (pyDict st.cache) tv.1 = some tv.2 := by
          by_contra hgn
          exact htvtb (mem_toBuild.2 ⟨htv, hgn⟩)
        have hmemc : tv ∈ st.cache := by
          rw [hcached] at hg
          simpa using dictGet_mem hg
        refine List.mem_append.2 (Or.inl (List.mem_filter.2 ⟨hmemc, ?_⟩))
        rw [decide_eq_true_eq, hdel]
        rintro ⟨ht1, -, -⟩
        rcases List.mem_map.1 ht1 with ⟨q, hqtb, hqt⟩
        have hqh : q ∈ head := (mem_toBuild.1 hqtb).1
        have hqt' : q.1 = tv.1 := hqt
        have hq1 : (tv.1, q.2) ∈ head := by
          rw [← hqt']
          exact hqh
        have hq2 : q.2 = tv.2 := mem_name_unique hh hq1 htv
        have hq_eq : q = tv := Prod.ext hqt' hq2
        exact htvtb (hq_eq ▸ hqtb)

/-! ### Trace-shape lemmas -/

theorem area_cache_of_mem_toDelete_false {head cached : List (String × String)}
    {built : List String} {st : Store} {x : Area × String × String}
    (h : x ∈ toDelete head cached built false st) : x.1 = Area.cache := by
  have h' : x ∈ toDeleteCacheKeys cached built ++ ([] : List (Area × String × String)) := h
  rw [List.append_nil] at h'
  exact area_of_mem_toDeleteCacheKeys h'

theorem mainRun_fail (head : List (String × String)) (bOk : String → Bool)
    (st : Store) (hfail : ∃ tv ∈ toBuild head (pyDict st.cache), bOk tv.1 = false) :
    mainRun head bOk st =
      (1, sync_tools head (pyDict st.cache) false
         (builtNames head (pyDict st.cache) bOk) st,
       applyOps st (sync_tools head (pyDict st.cache) false
         (builtNames head (pyDict st.cache) bOk) st)) := by
  have hne : toBuild head (pyDict st.cache) ≠ [] := by
    rcases hfail with ⟨tv, htv, -⟩
    intro he
    rw [he] at htv
    cases htv
  have hall : ((toBuild head (pyDict st.cache)).all fun tv => bOk tv.1) = false := by
    rw [List.all_eq_false]
    rcases hfail with ⟨tv, htv, hf⟩
    exact ⟨tv, htv, by simp [hf]⟩
  rw [mainRun_ne _ _ _ hne, hall]
  rfl

theorem cacheUpload_mem_sync (head cached : List (String × String))
    (uc : Bool) (built : List String) (st : Store) {t : String}
    (h : t ∈ built) :
    S3Op.uploadFile Area.cache t (hv head t) ∈
      sync_tools head cached uc built st := by
  unfold sync_tools
  exact List.mem_append.2 (Or.inl (List.mem_map.2 ⟨t, h, rfl⟩))

theorem sync_split (head cached : List (String × String)) (uc : Bool)
    (built : List String) (st : Store) :
    ∃ A, sync_tools head cached uc built st =
        A ++ (if (toDelete head cached built uc st).isEmpty then []
          else [S3Op.deleteObjects (toDelete head cached built uc st)]) ∧
      ∀ op ∈ A, isDeleteOp op = false := by
  refine ⟨(built.map fun t => S3Op.uploadFile Area.cache t (hv head t)) ++
    (if uc then
        (head.map fun tv =>
          S3Op.copyObject (Area.cache, tv.1, tv.2) (Area.current, tv.1, tv.2)) ++
          (built.map fun t => S3Op.uploadFile Area.current t (hv head t))
      else []), ?_, ?_⟩
  · unfold sync_tools
    rw [List.append_assoc]
  · intro op hop
    rcases List.mem_append.1 hop with hop | hop
    · rcases List.mem_map.1 hop with ⟨t', -, he⟩
      rw [← he]
      rfl
    · cases uc with
      | false => cases hop
      | true =>
        have hop2 : op ∈ (head.map fun tv =>
            S3Op.copyObject (Area.cache, tv.1, tv.2) (Area.current, tv.1, tv.2)) ++
            (built.map fun t => S3Op.uploadFile Area.current t (hv head t)) := hop
        rcases List.mem_append.1 hop2 with hop' | hop'
        · rcases List.mem_map.1 hop' with ⟨tv', -, he⟩
          rw [← he]
          rfl
        · rcases List.mem_map.1 hop' with ⟨t', -, he⟩
          rw [← he]
          rfl

theorem touchesCurrent_sync_false (head cached : List (String × String))
    (built : List String) (st : Store) :
    ∀ op ∈ sync_tools head cached false built st, touchesCurrent op = false := by
  intro op hop
  have hop' : op ∈ (built.map fun t => S3Op.uploadFile Area.cache t (hv head t)) ++
      ([] ++ (if (toDelete head cached built false st).isEmpty then []
        else [S3Op.deleteObjects (toDelete head cached built false st)])) := hop
  rcases List.mem_append.1 hop' with hm | hm
  · rcases List.mem_map.1 hm with ⟨t', -, he⟩
    rw [← he]
    rfl
  · rw [List.nil_append] at hm
    by_cases hemp : (toDelete head cached built false st).isEmpty
    · rw [if_pos hemp] at hm
      cases hm
    · rw [if_neg hemp] at hm
      rcases List.mem_singleton.1 hm with rfl
      show ((toDelete head cached built false st).any
        fun k => k.1 == Area.current) = false
      rw [List.any_eq_false]
      intro x hx
      rw [area_cache_of_mem_toDelete_false hx]
      simp

/-! ### String lemmas for the key round trip -/

theorem ext' {s t : String} (h : s.data = t.data) : s = t := by
  cases s with
  | mk d1 =>
    cases t with
    | mk d2 =>
      have h' : d1 = d2 := h
      rw [h']

theorem takeWhile_eq_of_stop {α : Type} (p : α → Bool) (xs : List α) (y : α)
    (ys : List α) (hxs : ∀ x ∈ xs, p x = true) (hy : p y = false) :
    (xs ++ y :: ys).takeWhile p = xs := by
  induction xs with
  | nil => simp [List.takeWhile_cons, hy]
  | cons a as ih =>
    rw [List.cons_append, List.takeWhile_cons,
      if_pos (hxs a (List.mem_cons_self _ _)),
      ih fun x hx => hxs x (List.mem_cons_of_mem _ hx)]

theorem rsplit1_append (sep : Char) (A N : List Char) (hN : sep ∉ N) :
    rsplit1 sep ⟨A ++ sep :: N⟩ = [⟨A⟩, ⟨N⟩] := by
  unfold rsplit1
  rw [show (String.mk (A ++ sep :: N)).data = A ++ sep :: N from rfl]
  rw [if_pos (List.mem_append.2 (Or.inr (List.mem_cons_self _ _)))]
  have hrev : (A ++ sep :: N).reverse = N.reverse ++ sep :: A.reverse := by
    rw [List.reverse_append, List.reverse_cons, List.append_assoc,
      List.singleton_append]
  rw [hrev]
  have htw : (N.reverse ++ sep :: A.reverse).takeWhile (fun c => c != sep) =
      N.reverse := by
    refine takeWhile_eq_of_stop _ _ _ _ ?_ ?_
    · intro x hx
      have hxN : x ∈ N := List.mem_reverse.1 hx
      have : x ≠ sep := fun he => hN (he ▸ hxN)
      simpa using this
    · simp
  rw [htw, List.reverse_reverse]
  have hlen : (A ++ sep :: N).length - N.length - 1 = A.length := by
    rw [List.length_append, List.length_cons]
    omega
  rw [hlen, List.take_left]

theorem rsplit1_of_not_mem (sep : Char) (s : String) (h : sep ∉ s.data) :
    rsplit1 sep s = [s] := by
  unfold rsplit1
  rw [if_neg h]

theorem keyName_data (tool version : String) :
    (keyName tool version).data = tool.data ++ '-' :: version.data := by
  unfold keyName
  rw [String.data_append, String.data_append]
  rw [show ("-" : String).data = ['-'] from rfl, List.append_assoc,
    List.singleton_append]

theorem no_slash_keyName {tool version : String} (h1 : '/' ∉ tool.data)
    (h3 : '/' ∉ version.data) : '/' ∉ (keyName tool version).data := by
  rw [keyName_data]
  intro hm
  rcases List.mem_append.1 hm with hm | hm
  · exact h1 hm
  · rcases List.mem_cons.1 hm with he | hm
    · exact absurd he (by decide)
    · exact h3 hm

theorem keyName_head_ne_slash (tool version : String) (h1 : '/' ∉ tool.data) :
    ¬((keyName tool version).data.head? = some '/') := by
  rw [keyName_data]
  cases htd : tool.data with
  | nil =>
    rw [List.nil_append, List.head?_cons]
    intro hcontra
    injection hcontra with hc
    exact absurd hc (by decide)
  | cons c cs =>
    rw [List.cons_append, List.head?_cons]
    intro hcontra
    injection hcontra with hc
    exact h1 (by rw [htd, hc]; exact List.mem_cons_self _ _)

/-! ## The claims -/

/-- C10 (counterexample): with prefix `"p"`, tool `"t"` (no `/`) and version
`"a/b"` (no `-`), `parse_s3_key (get_s3_key "p" "t" "a/b")` is `["b"]`, not
`["t", "a/b"]`: the claimed round trip fails because `rsplit("/", 1)` splits
inside a version that contains a slash. -/
theorem C10_roundtrip_counterexample :
    ('/' ∉ "t".data) ∧ ('-' ∉ "a/b".data) ∧
      parse_s3_key (get_s3_key "p" "t" "a/b") = ["b"] ∧
      parse_s3_key (get_s3_key "p" "t" "a/b") ≠ ["t", "a/b"] := by
  refine ⟨by decide, by decide, by decide, by decide⟩

/-- C10 (amended): for every prefix, every tool name containing no `/`, and
every version containing neither `-` nor `/`, parsing the built store key
recovers the pair: `parse_s3_key (get_s3_key pfx tool version) =
[tool, version]`. -/
theorem C10_parse_get_s3_key (pfx tool version : String)
    (h1 : '/' ∉ tool.data) (h2 : '-' ∉ version.data)
    (h3 : '/' ∉ version.data) :
    parse_s3_key (get_s3_key pfx tool version) = [tool, version] := by
  have hnoslash : '/' ∉ (keyName tool version).data := no_slash_keyName h1 h3
  have hstep2 : rsplit1 '-' (keyName tool version) = [tool, version] := by
    have hkey : keyName tool version = ⟨tool.data ++ '-' :: version.data⟩ :=
      ext' (by rw [keyName_data])
    rw [hkey, rsplit1_append '-' tool.data version.data h2]
  have hhead := keyName_head_ne_slash tool version h1
  unfold parse_s3_key get_s3_key
  rw [if_neg hhead]
  by_cases hp : pfx = "" ∨ pfx.data.getLast? = some '/'
  · rw [if_pos hp]
    rcases hp with hp | hp
    · have hempty : pfx ++ keyName tool version = keyName tool version :=
        ext' (by rw [String.data_append, hp]; rfl)
      rw [hempty, rsplit1_of_not_mem '/' _ hnoslash]
      rw [show List.getLastD [keyName tool version] "" =
        keyName tool version from rfl]
      exact hstep2
    · rcases List.getLast?_eq_some_iff.1 hp with ⟨A', hA⟩
      have hjoin : pfx ++ keyName tool version =
          ⟨A' ++ '/' :: (keyName tool version).data⟩ := by
        refine ext' ?_
        rw [String.data_append, hA, List.append_assoc, List.singleton_append]
      rw [hjoin, rsplit1_append '/' A' _ hnoslash]
      rw [show List.getLastD [(⟨A'⟩ : String),
        (⟨(keyName tool version).data⟩ : String)] "" =
          (⟨(keyName tool version).data⟩ : String) from rfl]
      rw [show (⟨(keyName tool version).data⟩ : String) =
        keyName tool version from rfl]
      exact hstep2
  · rw [if_neg hp]
    have hjoin : pfx ++ "/" ++ keyName tool version =
        ⟨pfx.data ++ '/' :: (keyName tool version).data⟩ := by
      refine ext' ?_
      rw [String.data_append, String.data_append,
        show ("/" : String).data = ['/'] from rfl, List.append_assoc,
        List.singleton_append]
    rw [hjoin, rsplit1_append '/' pfx.data _ hnoslash]
    rw [show List.getLastD [(⟨pfx.data⟩ : String),
      (⟨(keyName tool version).data⟩ : String)] "" =
        (⟨(keyName tool version).data⟩ : String) from rfl]
    rw [show (⟨(keyName tool version).data⟩ : String) =
      keyName tool version from rfl]
    exact hstep2

/-- C10 (witness): the amended round trip evaluated on the prefix
`"linux/cache/"`, the dash-containing tool `"my-tool"` and the version
`"ab0cd12"`. -/
theorem C10_parse_get_s3_key_witness :
    ('/' ∉ "my-tool".data) ∧ ('-' ∉ "ab0cd12".data) ∧ ('/' ∉ "ab0cd12".data) ∧
      parse_s3_key (get_s3_key "linux/cache/" "my-tool" "ab0cd12") =
        ["my-tool", "ab0cd12"] :=
  ⟨by decide, by decide, by decide,
    C10_parse_get_s3_key "linux/cache/" "my-tool" "ab0cd12" (by decide)
      (by decide) (by decide)⟩

/-- C1: after a run whose plan is nonempty and in which every needed build
succeeded (so `update_current` is true), the set of `(tool, version)` pairs
under `current/` equals exactly the freshly resolved `head_versions` map —
every resolved pair is written to `current/` and every other key under
`current/` is deleted — regardless of which tools were rebuilt this run
versus already cached. -/
theorem C1_current_equals_head (head : List (String × String))
    (bOk : String → Bool) (st : Store)
    (hh : namesNodup head) (hcur : namesNodup st.current)
    (hne : toBuild head (pyDict st.cache) ≠ [])
    (hok : ∀ tv ∈ toBuild head (pyDict st.cache), bOk tv.1 = true)
    (k : String × String) :
    k ∈ (mainRun head bOk st).2.2.current ↔ k ∈ head :=
  current_after_run_ok head bOk st hh hcur hne hok k

/-- C1 (witness): a run over `{alpha ↦ v1, beta ↦ v2}` with `alpha` stale in
the store; afterwards `alpha-v1` is under `current/`. -/
theorem C1_current_equals_head_witness :
    namesNodup [("alpha", "v1"), ("beta", "v2")] ∧
    namesNodup ([("alpha", "v0"), ("beta", "v2")] : List (String × String)) ∧
    toBuild [("alpha", "v1"), ("beta", "v2")]
      (pyDict [("alpha", "v0"), ("beta", "v2")]) ≠ [] ∧
    (("alpha", "v1") ∈ (mainRun [("alpha", "v1"), ("beta", "v2")]
        (fun _ => true)
        ⟨[("alpha", "v0"), ("beta", "v2")],
         [("alpha", "v0"), ("beta", "v2")]⟩).2.2.current ↔
      ("alpha", "v1") ∈ [("alpha", "v1"), ("beta", "v2")]) :=
  ⟨by decide, by decide, by decide,
    C1_current_equals_head _ _ _ (by decide) (by decide) (by decide)
      (fun _ _ => rfl) ("alpha", "v1")⟩

/-- C2: if the build of one planned tool fails, the run promotes nothing:
the exit status is nonzero, no issued operation writes or deletes a key
under `current/`, the `current/` listing is unchanged, and still every
binary staged before the failure is uploaded under `cache/` and its
superseded cache key is deleted. -/
theorem C2_failure_no_promotion (head : List (String × String))
    (bOk : String → Bool) (st : Store) (hh : namesNodup head)
    (hfail : ∃ tv ∈ toBuild head (pyDict st.cache), bOk tv.1 = false) :
    (mainRun head bOk st).1 = 1 ∧
    (∀ op ∈ (mainRun head bOk st).2.1, touchesCurrent op = false) ∧
    (mainRun head bOk st).2.2.current = st.current ∧
    (∀ t ∈ builtNames head (pyDict st.cache) bOk,
      S3Op.uploadFile Area.cache t (hv head t) ∈ (mainRun head bOk st).2.1 ∧
      (t, hv head t) ∈ (mainRun head bOk st).2.2.cache ∧
      ∀ cv, dictGet (pyDict st.cache) t = some cv → cv ≠ "" →
        (t, cv) ∉ (mainRun head bOk st).2.2.cache) := by
  rw [mainRun_fail head bOk st hfail]
  refine ⟨rfl, ?_, ?_, ?_⟩
  · exact touchesCurrent_sync_false _ _ _ _
  · show (applyOps st (sync_tools head (pyDict st.cache) false
      (builtNames head (pyDict st.cache) bOk) st)).current = st.current
    rw [apply_sync_false]
    show st.current.filter _ = st.current
    refine List.filter_eq_self.2 fun k _ => ?_
    rw [decide_eq_true_eq]
    exact not_mem_toDelete_current_false
  · intro t ht
    refine ⟨cacheUpload_mem_sync _ _ _ _ _ ht, ?_, ?_⟩
    · show (t, hv head t) ∈ (applyOps st (sync_tools head (pyDict st.cache)
        false (builtNames head (pyDict st.cache) bOk) st)).cache
      rw [apply_sync_false]
      show (t, hv head t) ∈ (addKeys st.cache
        ((builtNames head (pyDict st.cache) bOk).map
          fun t' => (t', hv head t'))).filter _
      rw [List.mem_filter]
      refine ⟨mem_addKeys.2 (Or.inr (List.mem_map.2 ⟨t, ht, rfl⟩)), ?_⟩
      rw [decide_eq_true_eq]
      intro hdel
      obtain ⟨-, hg, -⟩ :=
        mem_toDeleteCacheKeys_iff.1 (mem_toDelete_cache_iff.1 hdel)
      rcases mem_builtNames ht with ⟨v, hvtb⟩
      have hvh : hv head t = v := hv_eq_of_mem hh (mem_toBuild.1 hvtb).1
      rw [hvh] at hg
      exact (mem_toBuild.1 hvtb).2 hg
    · intro cv hgv hcv hmem
      have hmem' : (t, cv) ∈ (applyOps st (sync_tools head (pyDict st.cache)
        false (builtNames head (pyDict st.cache) bOk) st)).cache := hmem
      rw [apply_sync_false] at hmem'
      have hmem'' : (t, cv) ∈ (addKeys st.cache
        ((builtNames head (pyDict st.cache) bOk).map
          fun t' => (t', hv head t'))).filter
            (fun k => decide ((Area.cache, k.1, k.2) ∉
              toDelete head (pyDict st.cache)
                (builtNames head (pyDict st.cache) bOk) false st)) := hmem'
      have hpred := (List.mem_filter.1 hmem'').2
      rw [decide_eq_true_eq] at hpred
      exact hpred (mem_toDelete_cache_iff.2
        (mem_toDeleteCacheKeys_iff.2 ⟨ht, hgv, hcv⟩))

/-- C2 (witness): plan `{alpha, beta}`, `beta` fails after `alpha` is
staged: exit 1, `current/` unchanged, yet `alpha-v1` is uploaded to and
present under `cache/` while the superseded `alpha-v0` is deleted. -/
theorem C2_failure_no_promotion_witness :
    (mainRun [("alpha", "v1"), ("beta", "v2")] (fun t => t == "alpha")
      ⟨[("alpha", "v0")], [("alpha", "v0")]⟩).1 = 1 ∧
    (mainRun [("alpha", "v1"), ("beta", "v2")] (fun t => t == "alpha")
      ⟨[("alpha", "v0")], [("alpha", "v0")]⟩).2.2.current = [("alpha", "v0")] ∧
    S3Op.uploadFile Area.cache "alpha" "v1" ∈
      (mainRun [("alpha", "v1"), ("beta", "v2")] (fun t => t == "alpha")
        ⟨[("alpha", "v0")], [("alpha", "v0")]⟩).2.1 ∧
    ("alpha", "v1") ∈ (mainRun [("alpha", "v1"), ("beta", "v2")]
      (fun t => t == "alpha")
      ⟨[("alpha", "v0")], [("alpha", "v0")]⟩).2.2.cache ∧
    ("alpha", "v0") ∉ (mainRun [("alpha", "v1"), ("beta", "v2")]
      (fun t => t == "alpha")
      ⟨[("alpha", "v0")], [("alpha", "v0")]⟩).2.2.cache := by
  have h := C2_failure_no_promotion [("alpha", "v1"), ("beta", "v2")]
    (fun t => t == "alpha") ⟨[("alpha", "v0")], [("alpha", "v0")]⟩
    (by decide) ⟨("beta", "v2"), by decide, by decide⟩
  have hb := h.2.2.2 "alpha" (by decide)
  exact ⟨h.1, h.2.2.1, hb.1, hb.2.1, hb.2.2 "v0" (by decide) (by decide)⟩

/-- C3 (counterexample): `gamma` was promoted and then removed from the
configuration; the next run resolves only `alpha`, finds nothing to build,
exits 0 — and `current/gamma-v9` is still there, so the "even when no tool
needs rebuilding" part of the claim is false. -/
theorem C3_no_rebuild_counterexample :
    (mainRun [("alpha", "v1")] (fun _ => true)
        ⟨[("alpha", "v1")], [("alpha", "v1"), ("gamma", "v9")]⟩).1 = 0 ∧
    toBuild [("alpha", "v1")] (pyDict [("alpha", "v1")]) = [] ∧
    dictGet [("alpha", "v1")] "gamma" = none ∧
    ("gamma", "v9") ∈ (mainRun [("alpha", "v1")] (fun _ => true)
        ⟨[("alpha", "v1")], [("alpha", "v1"), ("gamma", "v9")]⟩).2.2.current := by
  decide

/-- C3 (amended): for every tool that was previously promoted and then
removed from the configuration, the next successful run **whose needs-build
set is nonempty** deletes that tool's keys from `current/`; a run with an
empty needs-build set short-circuits before `sync_tools` and leaves the
stale key in place. -/
theorem C3_removed_tool_deleted (head : List (String × String))
    (bOk : String → Bool) (st : Store)
    (hh : namesNodup head) (hcur : namesNodup st.current)
    (hne : toBuild head (pyDict st.cache) ≠ [])
    (hok : ∀ tv ∈ toBuild head (pyDict st.cache), bOk tv.1 = true)
    (g v : String) (_hprev : (g, v) ∈ st.current)
    (hgone : dictGet head g = none) :
    (g, v) ∉ (mainRun head bOk st).2.2.current := by
  intro hmem
  have hmem_head : (g, v) ∈ head :=
    (current_after_run_ok head bOk st hh hcur hne hok (g, v)).1 hmem
  exact dictGet_eq_none_iff.1 hgone (g, v) hmem_head rfl

/-- C3 (witness): `gamma-v9` is promoted but `gamma` is gone from the
configuration; a run that rebuilds `alpha` deletes it from `current/`. -/
theorem C3_removed_tool_deleted_witness :
    toBuild [("alpha", "v1")] (pyDict [("alpha", "v0")]) ≠ [] ∧
    ("gamma", "v9") ∈ ([("alpha", "v0"), ("gamma", "v9")] :
      List (String × String)) ∧
    dictGet [("alpha", "v1")] "gamma" = none ∧
    ("gamma", "v9") ∉ (mainRun [("alpha", "v1")] (fun _ => true)
      ⟨[("alpha", "v0")], [("alpha", "v0"), ("gamma", "v9")]⟩).2.2.current :=
  ⟨by decide, by decide, by decide,
    C3_removed_tool_deleted _ _ _ (by decide) (by decide) (by decide)
      (fun _ _ => rfl) "gamma" "v9" (by decide) (by decide)⟩

/-- C4: the planner selects the pair `(t, v)` if and only if `(t, v)` is a
freshly resolved pair whose key differs from the recorded cached key for
`t` (including the case of no record at all), and the selected set is
invariant (up to permutation) under reordering of the resolved map. -/
theorem C4_plan_rule_and_order (head cached : List (String × String))
    (t v : String) :
    ((t, v) ∈ toBuild head cached ↔
      (t, v) ∈ head ∧ dictGet cached t ≠ some v) ∧
    ∀ head₂, head.Perm head₂ →
      (toBuild head cached).Perm (toBuild head₂ cached) :=
  ⟨mem_toBuild, fun _ hp => hp.filter _⟩

/-- C4 (witness): the decision rule at `alpha` (no cache record) and the
order-independence on a two-tool map and its reversal. -/
theorem C4_plan_rule_and_order_witness :
    ((("alpha", "v1") ∈ toBuild [("alpha", "v1"), ("beta", "v2")]
        [("beta", "v2")]) ↔
      (("alpha", "v1") ∈ [("alpha", "v1"), ("beta", "v2")] ∧
        dictGet [("beta", "v2")] "alpha" ≠ some "v1")) ∧
    (toBuild [("alpha", "v1"), ("beta", "v2")] [("beta", "v2")]).Perm
      (toBuild [("beta", "v2"), ("alpha", "v1")] [("beta", "v2")]) :=
  ⟨(C4_plan_rule_and_order [("alpha", "v1"), ("beta", "v2")]
      [("beta", "v2")] "alpha" "v1").1,
   (C4_plan_rule_and_order [("alpha", "v1"), ("beta", "v2")]
      [("beta", "v2")] "alpha" "v1").2
      [("beta", "v2"), ("alpha", "v1")] (by decide)⟩

/-- C5 (counterexample): the pipeline has no append-only history log at
all; the only cross-run record it keeps is the `cache/` listing, and after
a successful run that listing does **not** reflect exactly the run's
desired key set: the stale `gamma-v9` entry persists although `gamma` is
not in the freshly resolved map. -/
theorem C5_no_history_log_counterexample :
    (mainRun [("alpha", "v1")] (fun _ => true)
      ⟨[("gamma", "v9")], []⟩).1 = 0 ∧
    dictGet (pyDict (mainRun [("alpha", "v1")] (fun _ => true)
      ⟨[("gamma", "v9")], []⟩).2.2.cache) "gamma" = some "v9" ∧
    dictGet [("alpha", "v1")] "gamma" = none := by
  decide

/-- C5 (amended): the pipeline appends no HistoryRecord — there is no
timestamped append-only log; the per-platform record of the last run that
the planner consults is the `cache/` listing itself, and every run that
exits successfully leaves that listing mapping each freshly resolved tool
to its head revision (entries of tools no longer configured may remain). -/
theorem C5_cache_is_the_record (head : List (String × String))
    (bOk : String → Bool) (st : Store)
    (hh : namesNodup head) (hc : namesNodup st.cache)
    (hcn : ∀ p ∈ st.cache, p.2 ≠ "")
    (hexit : (mainRun head bOk st).1 = 0)
    (t v : String) (htv : (t, v) ∈ head) :
    dictGet (pyDict (mainRun head bOk st).2.2.cache) t = some v :=
  cache_after_run_ok head bOk st hh hc hcn hexit (t, v) htv

/-- C5 (witness): after a successful run over `{alpha ↦ v1}` starting from
a cache that records `alpha ↦ v0`, the listing records `alpha ↦ v1`. -/
theorem C5_cache_is_the_record_witness :
    ("v0" : String) ≠ "" ∧
    (mainRun [("alpha", "v1")] (fun _ => true)
      ⟨[("alpha", "v0")], []⟩).1 = 0 ∧
    dictGet (pyDict (mainRun [("alpha", "v1")] (fun _ => true)
      ⟨[("alpha", "v0")], []⟩).2.2.cache) "alpha" = some "v1" :=
  ⟨by decide, by decide,
    C5_cache_is_the_record _ _ _ (by decide) (by decide) (by decide)
      (by decide) "alpha" "v1" (by decide)⟩

/-- C6 (counterexample): `sync_tools` writes objects directly under
`current/`: beyond the cache→current copy, every freshly built binary is
also `upload_file`d straight to its `current/` key, so "entries are only
added to current by explicit promotion copy, never written directly" is
false. -/
theorem C6_direct_write_counterexample :
    S3Op.uploadFile Area.current "alpha" "v2" ∈
      (mainRun [("alpha", "v2")] (fun _ => true)
        ⟨[("alpha", "v1")], [("alpha", "v1")]⟩).2.1 ∧
    (mainRun [("alpha", "v2")] (fun _ => true)
      ⟨[("alpha", "v1")], [("alpha", "v1")]⟩).1 = 0 := by
  decide

/-- C6 (amended): keys land under `current/` through the promotion copy
from `cache/` and, redundantly, through a direct upload of each binary
built this run — whose identical key is uploaded to `cache/` in the same
run — so every key under `current/` after a run was already under
`current/`, was already under `cache/`, or had its `cache/` copy uploaded
by this very run. -/
theorem C6_current_from_cache (head : List (String × String))
    (bOk : String → Bool) (st : Store)
    (hh : namesNodup head) (hc : namesNodup st.cache)
    (k : String × String) (hk : k ∈ (mainRun head bOk st).2.2.current) :
    k ∈ st.current ∨ k ∈ st.cache ∨
      S3Op.uploadFile Area.cache k.1 k.2 ∈ (mainRun head bOk st).2.1 := by
  by_cases htb0 : toBuild head (pyDict st.cache) = []
  · rw [mainRun_nil _ _ _ htb0] at hk
    exact Or.inl hk
  · cases hall : (toBuild head (pyDict st.cache)).all fun tv => bOk tv.1 with
    | false =>
      have hfail : ∃ tv ∈ toBuild head (pyDict st.cache), bOk tv.1 = false := by
        rcases List.all_eq_false.1 hall with ⟨tv, htv, hf⟩
        exact ⟨tv, htv, by simpa using hf⟩
      rw [mainRun_fail _ _ _ hfail] at hk
      have hk' : k ∈ (applyOps st (sync_tools head (pyDict st.cache) false
        (builtNames head (pyDict st.cache) bOk) st)).current := hk
      rw [apply_sync_false] at hk'
      have hk'' : k ∈ st.current.filter
          (fun p => decide ((Area.current, p.1, p.2) ∉
            toDelete head (pyDict st.cache)
              (builtNames head (pyDict st.cache) bOk) false st)) := hk'
      exact Or.inl (List.mem_filter.1 hk'').1
    | true =>
      have hok : ∀ tv ∈ toBuild head (pyDict st.cache), bOk tv.1 = true :=
        List.all_eq_true.1 hall
      have hbuilt : builtNames head (pyDict st.cache) bOk =
          (toBuild head (pyDict st.cache)).map (·.1) :=
        builtNames_all _ _ _ hok
      rw [mainRun_ne _ _ _ htb0] at hk ⊢
      rw [hall, hbuilt] at hk ⊢
      have hk' : k ∈ (applyOps st (sync_tools head (pyDict st.cache) true
        ((toBuild head (pyDict st.cache)).map (·.1)) st)).current := hk
      rw [apply_sync_true] at hk'
      have hk'' : k ∈ (addKeys (addKeys st.current head)
          (((toBuild head (pyDict st.cache)).map (·.1)).map
            fun t => (t, hv head t))).filter
          (fun p => decide ((Area.current, p.1, p.2) ∉
            toDelete head (pyDict st.cache)
              ((toBuild head (pyDict st.cache)).map (·.1)) true st)) := hk'
      rw [builtPairs_eq_toBuild hh] at hk''
      have hmem := (List.mem_filter.1 hk'').1
      rcases mem_addKeys.1 hmem with hm | hm
      · rcases mem_addKeys.1 hm with hm' | hm'
        · exact Or.inl hm'
        · by_cases hktb : k ∈ toBuild head (pyDict st.cache)
          · refine Or.inr (Or.inr ?_)
            have hup : S3Op.uploadFile Area.cache k.1 (hv head k.1) ∈
                sync_tools head (pyDict st.cache) true
                  ((toBuild head (pyDict st.cache)).map (·.1)) st :=
              cacheUpload_mem_sync _ _ _ _ _ (List.mem_map.2 ⟨k, hktb, rfl⟩)
            rw [hv_eq_of_mem hh hm'] at hup
            exact hup
          · refine Or.inr (Or.inl ?_)
            have hg : dictGet (pyDict st.cache) k.1 = some k.2 := by
              by_contra hgn
              exact hktb (mem_toBuild.2 ⟨hm', hgn⟩)
            rw [pyDict_eq_self hc] at hg
            simpa using dictGet_mem hg
      · refine Or.inr (Or.inr ?_)
        have hkh : k ∈ head := (mem_toBuild.1 hm).1
        have hup : S3Op.uploadFile Area.cache k.1 (hv head k.1) ∈
            sync_tools head (pyDict st.cache) true
              ((toBuild head (pyDict st.cache)).map (·.1)) st :=
          cacheUpload_mem_sync _ _ _ _ _ (List.mem_map.2 ⟨k, hm, rfl⟩)
        rw [hv_eq_of_mem hh hkh] at hup
        exact hup

/-- C6 (witness): after rebuilding `alpha` to `v2`, the promoted key
`alpha-v2` traces back to a cache upload issued this run. -/
theorem C6_current_from_cache_witness :
    ("alpha", "v2") ∈ (mainRun [("alpha", "v2")] (fun _ => true)
      ⟨[("alpha", "v1")], [("alpha", "v1")]⟩).2.2.current ∧
    (("alpha", "v2") ∈ ([("alpha", "v1")] : List (String × String)) ∨
      ("alpha", "v2") ∈ ([("alpha", "v1")] : List (String × String)) ∨
      S3Op.uploadFile Area.cache "alpha" "v2" ∈
        (mainRun [("alpha", "v2")] (fun _ => true)
          ⟨[("alpha", "v1")], [("alpha", "v1")]⟩).2.1) :=
  ⟨by decide,
    C6_current_from_cache [("alpha", "v2")] (fun _ => true)
      ⟨[("alpha", "v1")], [("alpha", "v1")]⟩ (by decide) (by decide)
      ("alpha", "v2") (by decide)⟩

/-- Every `sync_tools` trace is its delete-free prefix followed by its
deletes, and there is at most one delete operation (the single batch). -/
theorem sync_filter_split (head cached : List (String × String)) (uc : Bool)
    (built : List String) (st : Store) :
    ((sync_tools head cached uc built st).filter
        fun op => !isDeleteOp op) ++
      ((sync_tools head cached uc built st).filter fun op => isDeleteOp op) =
      sync_tools head cached uc built st ∧
    ((sync_tools head cached uc built st).filter
      fun op => isDeleteOp op).length ≤ 1 := by
  rcases sync_split head cached uc built st with ⟨A, hA, hAnd⟩
  have hAf1 : A.filter (fun op => !isDeleteOp op) = A :=
    List.filter_eq_self.2 fun op hop => by rw [hAnd op hop]; rfl
  have hAf2 : A.filter (fun op => isDeleteOp op) = [] :=
    List.filter_eq_nil_iff.2 fun op hop => by rw [hAnd op hop]; simp
  rw [hA, List.filter_append, List.filter_append, hAf1, hAf2,
    List.nil_append]
  by_cases hemp : (toDelete head cached built uc st).isEmpty
  · rw [if_pos hemp]
    simp
  · rw [if_neg hemp]
    refine ⟨?_, by simp [isDeleteOp]⟩
    simp [isDeleteOp]

/-- C7: within one run, no deletion is issued before the additive uploads
and copies: the issued operation list is its delete-free operations (in
order) followed by its deletes, and there is at most one delete — the
single batch issued last. -/
theorem C7_deletes_batched_last (head : List (String × String))
    (bOk : String → Bool) (st : Store) :
    ((mainRun head bOk st).2.1.filter fun op => !isDeleteOp op) ++
      ((mainRun head bOk st).2.1.filter fun op => isDeleteOp op) =
      (mainRun head bOk st).2.1 ∧
    ((mainRun head bOk st).2.1.filter fun op => isDeleteOp op).length ≤ 1 := by
  by_cases htb0 : toBuild head (pyDict st.cache) = []
  · rw [mainRun_nil _ _ _ htb0]
    exact ⟨rfl, by simp⟩
  · rw [mainRun_ne _ _ _ htb0]
    exact sync_filter_split _ _ _ _ _

/-- C8: running the pipeline twice with unchanged head versions makes the
second run a no-op: whenever the first run exits 0, the second run issues
no operations, changes nothing, and exits 0 (its needs-build set is
empty). -/
theorem C8_second_run_noop (head : List (String × String))
    (bOk bOk₂ : String → Bool) (st : Store)
    (hh : namesNodup head) (hc : namesNodup st.cache)
    (hcn : ∀ p ∈ st.cache, p.2 ≠ "")
    (hexit : (mainRun head bOk st).1 = 0) :
    mainRun head bOk₂ (mainRun head bOk st).2.2 =
      (0, [], (mainRun head bOk st).2.2) := by
  apply mainRun_nil
  rw [toBuild_eq_nil_iff]
  intro tv htv
  exact cache_after_run_ok head bOk st hh hc hcn hexit tv htv

/-- C8 (witness): the two-tool scenario run twice; the second run returns
`(0, [], ·)` on the store produced by the first. -/
theorem C8_second_run_noop_witness :
    (mainRun [("alpha", "v1"), ("beta", "v2")] (fun _ => true)
      ⟨[("alpha", "v0"), ("beta", "v2")],
       [("alpha", "v0"), ("beta", "v2")]⟩).1 = 0 ∧
    mainRun [("alpha", "v1"), ("beta", "v2")] (fun _ => true)
      (mainRun [("alpha", "v1"), ("beta", "v2")] (fun _ => true)
        ⟨[("alpha", "v0"), ("beta", "v2")],
         [("alpha", "v0"), ("beta", "v2")]⟩).2.2 =
      (0, [], (mainRun [("alpha", "v1"), ("beta", "v2")] (fun _ => true)
        ⟨[("alpha", "v0"), ("beta", "v2")],
         [("alpha", "v0"), ("beta", "v2")]⟩).2.2) :=
  ⟨by decide,
    C8_second_run_noop _ _ _ _ (by decide) (by decide) (by decide)
      (by decide)⟩

/-- C9: whenever the computed needs-build set is empty, the run returns
immediately with exit status 0, issues no store operation, and leaves the
store unchanged. -/
theorem C9_empty_plan_short_circuit (head : List (String × String))
    (bOk : String → Bool) (st : Store)
    (h : toBuild head (pyDict st.cache) = []) :
    mainRun head bOk st = (0, [], st) :=
  mainRun_nil head bOk st h

/-- C9 (witness): a store already caching the resolved version; the run is
a successful no-op. -/
theorem C9_empty_plan_short_circuit_witness :
    toBuild [("alpha", "v1")] (pyDict [("alpha", "v1")]) = [] ∧
    mainRun [("alpha", "v1")] (fun _ => true)
      ⟨[("alpha", "v1")], [("gamma", "v9")]⟩ =
      (0, [], ⟨[("alpha", "v1")], [("gamma", "v9")]⟩) :=
  ⟨by decide,
    C9_empty_plan_short_circuit _ _ _ (by decide)⟩

end Toolstate
